import Mathlib

/-!
Verification of the hex binary-to-text encoding module
(`src/libserialize/hex.rs`): the encoder `ToHex::to_hex`, the decoder
`FromHex::from_hex`, the error type `FromHexError` and its `Display`
rendering.

Modelling conventions:
* A Rust byte (`u8`) is a `Nat` together with a `< 256` bound where it
  matters; `u8` shift-left truncation is modelled by an explicit `% 256`.
* A Rust `str` is a `List Char`; the byte-wise iteration of `from_hex`
  runs over the UTF-8 encoding `utf8Bytes` of that list.
* The possible panic of `self[idx..].chars().next().unwrap()` (slicing a
  string at a non-character-boundary, or an empty suffix) is modelled by
  `Option`: `from_hex` returns `none` exactly when the Rust code would
  panic, and `some result` otherwise.
-/

/-- The encoder alphabet, byte values of `b"0123456789abcdef"`
(`CHARS` in the source). -/
def CHARS : List Nat :=
  [0x30, 0x31, 0x32, 0x33, 0x34, 0x35, 0x36, 0x37,
   0x38, 0x39, 0x61, 0x62, 0x63, 0x64, 0x65, 0x66]

/-- Rust `ToHex::to_hex` on the underlying byte values: for each input byte,
append `CHARS[byte >> 4]` and `CHARS[byte & 0xf]`. -/
def to_hex : List Nat → List Nat
  | [] => []
  | byte :: rest =>
      CHARS.getD (byte >>> 4) 0 :: CHARS.getD (byte &&& 0xf) 0 :: to_hex rest

/-- The `String` actually returned by `to_hex`
(`String::from_utf8_unchecked` applied to the byte buffer): each produced
byte is ASCII, so the string is exactly the character-per-byte reading of
the buffer. -/
def to_hexChars (l : List Nat) : List Char := (to_hex l).map Char.ofNat

/-- The hex-digit classification of the decoder's `match`: the three arms
`b'A'..=b'F'`, `b'a'..=b'f'`, `b'0'..=b'9'` with their nibble values;
`none` for every other byte. -/
def hexDigitValue (b : Nat) : Option Nat :=
  if 0x41 ≤ b ∧ b ≤ 0x46 then some (b - 0x41 + 10)
  else if 0x61 ≤ b ∧ b ≤ 0x66 then some (b - 0x61 + 10)
  else if 0x30 ≤ b ∧ b ≤ 0x39 then some (b - 0x30)
  else none

/-- The whitespace arm `b' ' | b'\r' | b'\n' | b'\t'` of the decoder. -/
def isWhitespaceByte (b : Nat) : Bool :=
  b == 0x20 || b == 0x0d || b == 0x0a || b == 0x09

/-- A byte the decoder's scan accepts: a hex digit or recognized
whitespace. -/
def goodByte (b : Nat) : Bool :=
  (hexDigitValue b).isSome || isWhitespaceByte b

/-- UTF-8 encoding of one character (the byte sequence Rust's `str`
stores for it). -/
def utf8EncodeChar (c : Char) : List Nat :=
  let v := c.toNat
  if v < 0x80 then [v]
  else if v < 0x800 then
    [0xc0 ||| (v >>> 6), 0x80 ||| (v &&& 0x3f)]
  else if v < 0x10000 then
    [0xe0 ||| (v >>> 12), 0x80 ||| ((v >>> 6) &&& 0x3f), 0x80 ||| (v &&& 0x3f)]
  else
    [0xf0 ||| (v >>> 18), 0x80 ||| ((v >>> 12) &&& 0x3f),
     0x80 ||| ((v >>> 6) &&& 0x3f), 0x80 ||| (v &&& 0x3f)]

/-- The UTF-8 byte sequence of a string; `from_hex` iterates over these
bytes (`self.bytes().enumerate()`). -/
def utf8Bytes : List Char → List Nat
  | [] => []
  | c :: t => utf8EncodeChar c ++ utf8Bytes t

/-- Rust `self[idx..].chars().next()`: the character of `s` starting at byte
offset `idx`; `none` when `idx` is not a character boundary or is past
the end (the cases where the Rust expression panics). -/
def charAtByte : List Char → Nat → Option Char
  | [], _ => none
  | c :: cs, idx =>
      if idx = 0 then some c
      else
        if (utf8EncodeChar c).length ≤ idx then
          charAtByte cs (idx - (utf8EncodeChar c).length)
        else none

/-- Rust `FromHexError` from the source. -/
inductive FromHexError where
  | InvalidHexCharacter : Char → Nat → FromHexError
  | InvalidHexLength : FromHexError
deriving DecidableEq

/-- The decoder's scan loop. Arguments after `s` (the original string,
used only to build the error character): remaining bytes, current byte
index `idx`, `modulus`, `buf` (the `u8` accumulator), and the output
vector `b`. `none` models the panic of the `unwrap`. -/
def from_hexLoop (s : List Char) :
    List Nat → Nat → Nat → Nat → List Nat →
    Option (Except FromHexError (List Nat))
  | [], _, modulus, _, b =>
      if modulus = 0 then some (Except.ok b)
      else some (Except.error FromHexError.InvalidHexLength)
  | byte :: rest, idx, modulus, buf, b =>
      let buf1 := (buf <<< 4) % 256
      match hexDigitValue byte with
      | some v =>
          let buf2 := buf1 ||| v
          if modulus + 1 = 2 then
            from_hexLoop s rest (idx + 1) 0 buf2 (b ++ [buf2])
          else
            from_hexLoop s rest (idx + 1) (modulus + 1) buf2 b
      | none =>
          if isWhitespaceByte byte then
            from_hexLoop s rest (idx + 1) modulus (buf1 >>> 4) b
          else
            match charAtByte s idx with
            | some ch =>
                some (Except.error (FromHexError.InvalidHexCharacter ch idx))
            | none => none

/-- Rust `FromHex::from_hex` on a string given as its character list. -/
def from_hex (s : List Char) : Option (Except FromHexError (List Nat)) :=
  from_hexLoop s (utf8Bytes s) 0 0 0 []

/-- The `Display` rendering of `FromHexError` (`impl fmt::Display`). -/
def fromHexErrorDisplay : FromHexError → String
  | FromHexError.InvalidHexCharacter ch idx =>
      "Invalid character '" ++ String.singleton ch ++ "' at position " ++
        Nat.repr idx
  | FromHexError.InvalidHexLength => "Invalid input length"

-- Sanity checks mirroring the source's unit tests.
example : to_hex [0x66, 0x6f, 0x6f, 0x62, 0x61, 0x72] =
    [0x36, 0x36, 0x36, 0x66, 0x36, 0x66, 0x36, 0x32, 0x36, 0x31, 0x37, 0x32] := by
  decide

example : from_hex ("666f6f626172".toList) =
    some (Except.ok [0x66, 0x6f, 0x6f, 0x62, 0x61, 0x72]) := rfl

example : from_hex ("666F6F626172".toList) =
    some (Except.ok [0x66, 0x6f, 0x6f, 0x62, 0x61, 0x72]) := rfl

example : from_hex ("666".toList) =
    some (Except.error FromHexError.InvalidHexLength) := rfl

example : from_hex ("66 6".toList) =
    some (Except.error FromHexError.InvalidHexLength) := rfl

example : from_hex ("66y6".toList) =
    some (Except.error (FromHexError.InvalidHexCharacter 'y' 2)) := rfl

example : from_hex ("666f 6f6\r\n26172 ".toList) =
    some (Except.ok [0x66, 0x6f, 0x6f, 0x62, 0x61, 0x72]) := rfl

/-! ### Arithmetic helper lemmas for the `u8` accumulator -/

lemma shl4_mod (buf : Nat) : (buf <<< 4) % 256 = buf % 16 * 16 := by
  rw [Nat.shiftLeft_eq]; omega

lemma shr4_eq (x : Nat) : x >>> 4 = x / 16 := by
  rw [Nat.shiftRight_eq_div_pow]

lemma and15_eq (y : Nat) : y &&& 15 = y % 16 :=
  Nat.and_pow_two_sub_one_eq_mod y 4

lemma or_sixteen : ∀ m, m < 16 → ∀ v, v < 16 → m * 16 ||| v = m * 16 + v := by
  decide

/-- The effect of `buf <<= 4; buf |= v` on the accumulator. -/
lemma digit_buf (buf v : Nat) (hv : v < 16) :
    ((buf <<< 4) % 256) ||| v = buf % 16 * 16 + v := by
  rw [shl4_mod]
  exact or_sixteen _ (Nat.mod_lt _ (by norm_num)) v hv

/-- The effect of `buf <<= 4; buf >>= 4` on the accumulator (the
whitespace arm): only the low nibble survives. -/
lemma ws_buf (buf : Nat) : ((buf <<< 4) % 256) >>> 4 = buf % 16 := by
  rw [shl4_mod, shr4_eq]; omega

/-! ### Classification lemmas -/

lemma hexDigitValue_lt (b v : Nat) (h : hexDigitValue b = some v) : v < 16 := by
  unfold hexDigitValue at h
  split_ifs at h <;> simp_all <;> omega

lemma goodByte_lt (b : Nat) (h : goodByte b = true) : b < 0x80 := by
  unfold goodByte hexDigitValue isWhitespaceByte at h
  split_ifs at h <;> simp_all <;> omega

lemma hexDigitValue_CHARS : ∀ v, v < 16 → hexDigitValue (CHARS.getD v 0) = some v := by
  decide

lemma CHARS_good : ∀ b ∈ CHARS, goodByte b = true := by decide

lemma CHARS_lt (b : Nat) (h : b ∈ CHARS) : b < 0x80 := goodByte_lt b (CHARS_good b h)

lemma utf8_CHARS : ∀ b ∈ CHARS, utf8EncodeChar (Char.ofNat b) = [b] := by decide

/-! ### The digit-only view of the decoder loop -/

/-- The nibble values of the hex digits of a byte list, whitespace and
everything else dropped. -/
def digits (l : List Nat) : List Nat := l.filterMap hexDigitValue

/-- The decoder loop restricted to its action on hex digits: the view of
`from_hexLoop` that remains once whitespace skipping and error exits are
stripped away.  Only `buf % 16` ever matters, which the definition makes
explicit. -/
def nibLoop : List Nat → Nat → Nat → List Nat → Except FromHexError (List Nat)
  | [], modulus, _, b =>
      if modulus = 0 then Except.ok b
      else Except.error FromHexError.InvalidHexLength
  | v :: rest, modulus, buf, b =>
      let buf2 := buf % 16 * 16 + v
      if modulus + 1 = 2 then nibLoop rest 0 buf2 (b ++ [buf2])
      else nibLoop rest (modulus + 1) buf2 b

lemma digits_cons_none (b : Nat) (l : List Nat) (h : hexDigitValue b = none) :
    digits (b :: l) = digits l := by
  simp [digits, List.filterMap_cons, h]

lemma digits_cons_some (b v : Nat) (l : List Nat) (h : hexDigitValue b = some v) :
    digits (b :: l) = v :: digits l := by
  simp [digits, List.filterMap_cons, h]

lemma nibLoop_mod : ∀ (l : List Nat) (m buf : Nat) (acc : List Nat),
    nibLoop l m (buf % 16) acc = nibLoop l m buf acc := by
  intro l
  cases l with
  | nil => intro m buf acc; rfl
  | cons v t =>
      intro m buf acc
      simp only [nibLoop]
      rw [show buf % 16 % 16 = buf % 16 from by omega]

/-- Bridge: on a byte list containing only hex digits and whitespace, the
decoder loop never errors on a character, ignores `s` and `idx`, and
computes exactly the digit-only loop on the digit values. -/
lemma loop_good : ∀ (l : List Nat) (s : List Char) (idx m buf : Nat) (acc : List Nat),
    (∀ b ∈ l, goodByte b = true) →
    from_hexLoop s l idx m buf acc = some (nibLoop (digits l) m buf acc) := by
  intro l
  induction l with
  | nil =>
      intro s idx m buf acc _
      simp only [from_hexLoop, digits, List.filterMap_nil, nibLoop]
      split <;> simp_all
  | cons byte rest ih =>
      intro s idx m buf acc h
      have hgood : goodByte byte = true := h byte (List.mem_cons_self _ _)
      have hrest : ∀ b ∈ rest, goodByte b = true :=
        fun b hb => h b (List.mem_cons_of_mem _ hb)
      cases hv : hexDigitValue byte with
      | some v =>
          have hv16 : v < 16 := hexDigitValue_lt byte v hv
          rw [digits_cons_some byte v rest hv]
          simp only [from_hexLoop, hv, nibLoop, digit_buf buf v hv16]
          by_cases hm : m + 1 = 2 <;> simp only [hm, if_true, if_false, reduceIte]
          · exact ih s (idx + 1) 0 _ _ hrest
          · exact ih s (idx + 1) (m + 1) _ _ hrest
      | none =>
          have hws : isWhitespaceByte byte = true := by
            unfold goodByte at hgood
            rw [hv] at hgood
            simpa using hgood
          rw [digits_cons_none byte rest hv]
          simp only [from_hexLoop, hv, hws, if_true]
          rw [ws_buf, ih s (idx + 1) m (buf % 16) acc hrest, nibLoop_mod]

/-! ### Parity behaviour of the digit-only loop -/

lemma nibLoop_even : ∀ (t : List Nat) (m buf : Nat) (acc : List Nat),
    m < 2 → 2 ∣ (m + t.length) → ∃ r, nibLoop t m buf acc = Except.ok r := by
  intro t
  induction t with
  | nil =>
      intro m buf acc hm hd
      have hm0 : m = 0 := by simp at hd; omega
      subst hm0
      exact ⟨acc, rfl⟩
  | cons v rest ih =>
      intro m buf acc hm hd
      simp only [nibLoop]
      by_cases hm2 : m + 1 = 2 <;> simp only [hm2, if_true, if_false, reduceIte]
      · exact ih 0 _ _ (by omega) (by simp at hd ⊢; omega)
      · exact ih (m + 1) _ _ (by omega) (by simp at hd ⊢; omega)

lemma nibLoop_odd : ∀ (t : List Nat) (m buf : Nat) (acc : List Nat),
    m < 2 → ¬ 2 ∣ (m + t.length) →
    nibLoop t m buf acc = Except.error FromHexError.InvalidHexLength := by
  intro t
  induction t with
  | nil =>
      intro m buf acc hm hd
      have hm1 : m = 1 := by simp at hd; omega
      subst hm1
      rfl
  | cons v rest ih =>
      intro m buf acc hm hd
      simp only [nibLoop]
      by_cases hm2 : m + 1 = 2 <;> simp only [hm2, if_true, if_false, reduceIte]
      · exact ih 0 _ _ (by omega) (by simp at hd ⊢; omega)
      · exact ih (m + 1) _ _ (by omega) (by simp at hd ⊢; omega)

/-! ### The encoder's output, seen by the decoder -/

lemma CHARS_getD_mem : ∀ i, i < 16 → CHARS.getD i 0 ∈ CHARS := by decide

lemma to_hex_mem : ∀ (l : List Nat), (∀ x ∈ l, x < 256) → ∀ b ∈ to_hex l, b ∈ CHARS := by
  intro l
  induction l with
  | nil => intro _ b hb; simp [to_hex] at hb
  | cons y t ih =>
      intro h b hb
      have hy : y < 256 := h y (List.mem_cons_self _ _)
      have hhi : y >>> 4 < 16 := by rw [shr4_eq]; omega
      have hlo : y &&& 0xf < 16 := by rw [and15_eq]; omega
      simp only [to_hex, List.mem_cons] at hb
      rcases hb with h1 | h2 | h3
      · exact h1 ▸ CHARS_getD_mem _ hhi
      · exact h2 ▸ CHARS_getD_mem _ hlo
      · exact ih (fun x hx => h x (List.mem_cons_of_mem _ hx)) b h3

lemma utf8Bytes_map_ofNat : ∀ (l : List Nat), (∀ b ∈ l, b ∈ CHARS) →
    utf8Bytes (l.map Char.ofNat) = l := by
  intro l
  induction l with
  | nil => intro _; rfl
  | cons b t ih =>
      intro h
      simp only [List.map_cons, utf8Bytes]
      rw [utf8_CHARS b (h b (List.mem_cons_self _ _)),
          ih (fun x hx => h x (List.mem_cons_of_mem _ hx))]
      rfl

lemma utf8_to_hexChars (l : List Nat) (h : ∀ x ∈ l, x < 256) :
    utf8Bytes (to_hexChars l) = to_hex l :=
  utf8Bytes_map_ofNat _ (to_hex_mem l h)

/-- Decoding the encoder's digit stream recovers the bytes. -/
lemma nibLoop_to_hex : ∀ (l : List Nat), (∀ x ∈ l, x < 256) → ∀ (buf : Nat) (acc : List Nat),
    nibLoop (digits (to_hex l)) 0 buf acc = Except.ok (acc ++ l) := by
  intro l
  induction l with
  | nil => intro _ buf acc; simp [to_hex, digits, nibLoop]
  | cons y t ih =>
      intro h buf acc
      have hy : y < 256 := h y (List.mem_cons_self _ _)
      have hhi : y >>> 4 < 16 := by rw [shr4_eq]; omega
      have hlo : y &&& 0xf < 16 := by rw [and15_eq]; omega
      simp only [to_hex]
      rw [digits_cons_some _ _ _ (hexDigitValue_CHARS _ hhi),
          digits_cons_some _ _ _ (hexDigitValue_CHARS _ hlo)]
      simp only [nibLoop]
      norm_num
      have hbuf : (buf % 16 * 16 + y >>> 4) % 16 * 16 + (y &&& 0xf) = y := by
        rw [shr4_eq, and15_eq]; omega
      rw [hbuf, ih (fun x hx => h x (List.mem_cons_of_mem _ hx)) _ (acc ++ [y])]
      simp

/-- C1: for every byte sequence `b`, decoding the encoding recovers `b`
exactly: `from_hex (to_hex b) = Ok b`. -/
theorem from_hex_to_hex_roundtrip (l : List Nat) (h : ∀ x ∈ l, x < 256) :
    from_hex (to_hexChars l) = some (Except.ok l) := by
  unfold from_hex
  rw [utf8_to_hexChars l h,
      loop_good (to_hex l) (to_hexChars l) 0 0 0 []
        (fun b hb => CHARS_good b (to_hex_mem l h b hb)),
      nibLoop_to_hex l h 0 []]
  rfl

/-- Witness for C1 at the byte sequence `[0x66, 0x6f, 0x6f]`. -/
theorem from_hex_to_hex_roundtrip_witness :
    from_hex (to_hexChars [0x66, 0x6f, 0x6f]) = some (Except.ok [0x66, 0x6f, 0x6f]) :=
  from_hex_to_hex_roundtrip [0x66, 0x6f, 0x6f] (by decide)

/-! ### Encoder structure lemmas -/

lemma to_hex_append : ∀ (a b : List Nat), to_hex (a ++ b) = to_hex a ++ to_hex b := by
  intro a b
  induction a with
  | nil => rfl
  | cons y t ih => simp only [List.cons_append, to_hex, List.append_eq, ih]

lemma to_hex_length : ∀ l : List Nat, (to_hex l).length = 2 * l.length := by
  intro l
  induction l with
  | nil => rfl
  | cons y t ih => simp [to_hex, ih]; omega

lemma to_hex_render : ∀ (l : List Nat) (i : Nat), i < l.length →
    (to_hex l).getD (2 * i) 0 = CHARS.getD (l.getD i 0 / 16) 0 ∧
    (to_hex l).getD (2 * i + 1) 0 = CHARS.getD (l.getD i 0 % 16) 0 := by
  intro l
  induction l with
  | nil => intro i hi; simp at hi
  | cons y t ih =>
      intro i hi
      cases i with
      | zero =>
          constructor
          · simp [to_hex, shr4_eq]
          · simp [to_hex, and15_eq]
      | succ j =>
          have hj : j < t.length := by simp at hi; omega
          have h2 : 2 * (j + 1) = 2 * j + 1 + 1 := by omega
          rw [h2]
          simp only [to_hex, List.getD_cons_succ]
          exact ih j hj

/-- C10: the encoder is a concatenation homomorphism, and (on byte
sequences) injective. -/
theorem to_hex_hom_inj :
    (∀ a b : List Nat, to_hex (a ++ b) = to_hex a ++ to_hex b) ∧
    (∀ a b : List Nat, (∀ x ∈ a, x < 256) → (∀ x ∈ b, x < 256) →
      to_hex a = to_hex b → a = b) := by
  refine ⟨to_hex_append, ?_⟩
  intro a b ha hb h
  have h1 := nibLoop_to_hex a ha 0 []
  have h2 := nibLoop_to_hex b hb 0 []
  rw [h, h2] at h1
  simpa using h1.symm

/-- Witness for C10 at the byte sequences `[0x12]` and `[0x34, 0xab]`. -/
theorem to_hex_hom_inj_witness :
    to_hex ([0x12] ++ [0x34, 0xab]) = to_hex [0x12] ++ to_hex [0x34, 0xab] ∧
    [0x12, 0x34] = [0x12, 0x34] :=
  ⟨to_hex_hom_inj.1 [0x12] [0x34, 0xab],
   to_hex_hom_inj.2 [0x12, 0x34] [0x12, 0x34] (by decide) (by decide) rfl⟩

/-- C2: the encoder always succeeds, output length is `2 * len`, every
output byte is in the alphabet, byte `i` is rendered as the hex character
of its high nibble followed by that of its low nibble, and the output
buffer is the UTF-8 encoding of the returned string (so
`String::from_utf8_unchecked` is sound here). -/
theorem to_hex_contract (l : List Nat) (h : ∀ x ∈ l, x < 256) :
    (to_hex l).length = 2 * l.length ∧
    (∀ c ∈ to_hex l, c ∈ CHARS) ∧
    (∀ i, i < l.length →
      (to_hex l).getD (2 * i) 0 = CHARS.getD (l.getD i 0 / 16) 0 ∧
      (to_hex l).getD (2 * i + 1) 0 = CHARS.getD (l.getD i 0 % 16) 0) ∧
    utf8Bytes (to_hexChars l) = to_hex l :=
  ⟨to_hex_length l, to_hex_mem l h, to_hex_render l, utf8_to_hexChars l h⟩

/-- Witness for C2 at the byte sequence `[0x04, 0xd2]`. -/
theorem to_hex_contract_witness :
    (to_hex [0x04, 0xd2]).length = 2 * 2 ∧
    (∀ c ∈ to_hex [0x04, 0xd2], c ∈ CHARS) ∧
    (∀ i, i < 2 →
      (to_hex [0x04, 0xd2]).getD (2 * i) 0 =
        CHARS.getD ([0x04, 0xd2].getD i 0 / 16) 0 ∧
      (to_hex [0x04, 0xd2]).getD (2 * i + 1) 0 =
        CHARS.getD ([0x04, 0xd2].getD i 0 % 16) 0) ∧
    utf8Bytes (to_hexChars [0x04, 0xd2]) = to_hex [0x04, 0xd2] :=
  to_hex_contract [0x04, 0xd2] (by decide)

/-! ### Whitespace-only inputs -/

lemma ws_hexDigitValue_none (b : Nat) (h : isWhitespaceByte b = true) :
    hexDigitValue b = none := by
  unfold isWhitespaceByte at h
  simp at h
  rcases h with ((h | h) | h) | h <;> subst h <;> rfl

lemma utf8Bytes_ws : ∀ s : List Char,
    (∀ c ∈ s, c = ' ' ∨ c = '\r' ∨ c = '\n' ∨ c = '\t') →
    ∀ b ∈ utf8Bytes s, isWhitespaceByte b = true := by
  intro s
  induction s with
  | nil => intro _ b hb; simp [utf8Bytes] at hb
  | cons c t ih =>
      intro h b hb
      simp only [utf8Bytes, List.mem_append] at hb
      rcases hb with hb | hb
      · rcases h c (List.mem_cons_self _ _) with hc | hc | hc | hc <;> subst hc <;>
          revert b <;> decide
      · exact ih (fun x hx => h x (List.mem_cons_of_mem _ hx)) b hb

/-- C7: the empty string and every whitespace-only string decode to the
empty byte sequence. -/
theorem from_hex_empty_and_ws :
    from_hex [] = some (Except.ok []) ∧
    ∀ s : List Char, (∀ c ∈ s, c = ' ' ∨ c = '\r' ∨ c = '\n' ∨ c = '\t') →
      from_hex s = some (Except.ok []) := by
  refine ⟨rfl, ?_⟩
  intro s h
  have hws := utf8Bytes_ws s h
  have hg : ∀ b ∈ utf8Bytes s, goodByte b = true := by
    intro b hb
    unfold goodByte
    rw [hws b hb]
    simp
  unfold from_hex
  rw [loop_good _ _ _ _ _ _ hg]
  have hd : digits (utf8Bytes s) = [] := by
    simp only [digits, List.filterMap_eq_nil_iff]
    exact fun b hb => ws_hexDigitValue_none b (hws b hb)
  rw [hd]
  rfl

/-- Witness for C7 at the whitespace-only string `" \r\n\t"`. -/
theorem from_hex_empty_and_ws_witness :
    from_hex (" \r\n\t".toList) = some (Except.ok []) :=
  from_hex_empty_and_ws.2 (" \r\n\t".toList) (by decide)

/-- C8: the `Display` rendering of `InvalidHexCharacter ch idx` is
`"Invalid character '<ch>' at position <idx>"`, and that of
`InvalidHexLength` is `"Invalid input length"`. -/
theorem fromHexErrorDisplay_spec :
    (∀ (ch : Char) (idx : Nat),
      fromHexErrorDisplay (FromHexError.InvalidHexCharacter ch idx) =
        "Invalid character '" ++ String.singleton ch ++ "' at position " ++
          Nat.repr idx) ∧
    fromHexErrorDisplay FromHexError.InvalidHexLength = "Invalid input length" :=
  ⟨fun _ _ => rfl, rfl⟩

/-! ### UTF-8 structure lemmas -/

lemma utf8Bytes_append : ∀ (a b : List Char),
    utf8Bytes (a ++ b) = utf8Bytes a ++ utf8Bytes b := by
  intro a b
  induction a with
  | nil => rfl
  | cons c t ih =>
      simp only [List.cons_append, utf8Bytes, List.append_eq, ih, List.append_assoc]

lemma utf8EncodeChar_ascii (c : Char) (h : c.toNat < 0x80) :
    utf8EncodeChar c = [c.toNat] := by
  unfold utf8EncodeChar
  rw [if_pos h]

lemma utf8EncodeChar_length_pos (c : Char) : 0 < (utf8EncodeChar c).length := by
  unfold utf8EncodeChar
  dsimp only
  split_ifs <;> simp

lemma char_toNat_lt (c : Char) : c.toNat < 0x110000 := by
  rcases c.valid with h | h
  · exact Nat.lt_trans h (by norm_num)
  · exact h.2

lemma orC0_ge : ∀ x, x < 32 → 0x80 ≤ 0xc0 ||| x := by decide

lemma orE0_ge : ∀ x, x < 16 → 0x80 ≤ 0xe0 ||| x := by decide

lemma orF0_ge : ∀ x, x < 8 → 0x80 ≤ 0xf0 ||| x := by decide

lemma shr6_eq (x : Nat) : x >>> 6 = x / 64 := by rw [Nat.shiftRight_eq_div_pow]

lemma shr12_eq (x : Nat) : x >>> 12 = x / 4096 := by rw [Nat.shiftRight_eq_div_pow]

lemma shr18_eq (x : Nat) : x >>> 18 = x / 262144 := by rw [Nat.shiftRight_eq_div_pow]

/-- A character at or above `0x80` encodes with a non-ASCII leading byte:
the scan can never mistake the inside of a multi-byte character for a hex
digit or whitespace. -/
lemma utf8EncodeChar_head_ge (c : Char) (h : 0x80 ≤ c.toNat) :
    ∃ b bs, utf8EncodeChar c = b :: bs ∧ 0x80 ≤ b := by
  have hv := char_toNat_lt c
  unfold utf8EncodeChar
  dsimp only
  split_ifs with h1 h2 h3
  · omega
  · exact ⟨_, _, rfl, orC0_ge _ (by rw [shr6_eq]; omega)⟩
  · exact ⟨_, _, rfl, orE0_ge _ (by rw [shr12_eq]; omega)⟩
  · exact ⟨_, _, rfl, orF0_ge _ (by rw [shr18_eq]; omega)⟩

lemma charAtByte_cons_skip (c : Char) (cs : List Char) (k : Nat) :
    charAtByte (c :: cs) ((utf8EncodeChar c).length + k) = charAtByte cs k := by
  have hpos := utf8EncodeChar_length_pos c
  simp only [charAtByte]
  rw [if_neg (by omega), if_pos (by omega)]
  congr 1
  omega

/-- The byte offset right after a prefix of whole characters is a
character boundary: the slice there starts with the next character. -/
lemma charAtByte_boundary : ∀ (s1 : List Char) (c : Char) (s2 : List Char),
    charAtByte (s1 ++ c :: s2) (utf8Bytes s1).length = some c := by
  intro s1
  induction s1 with
  | nil => intro c s2; rfl
  | cons d t ih =>
      intro c s2
      simp only [List.cons_append, utf8Bytes, List.length_append]
      rw [charAtByte_cons_skip]
      exact ih c s2

/-! ### The first rejected byte -/

/-- Index of the first byte of the stream that is neither a hex digit
nor recognized whitespace, if any. -/
def firstBad : List Nat → Option Nat
  | [] => none
  | b :: t => if goodByte b then (firstBad t).map (· + 1) else some 0

lemma firstBad_eq_none : ∀ l : List Nat,
    firstBad l = none ↔ ∀ b ∈ l, goodByte b = true := by
  intro l
  induction l with
  | nil => simp [firstBad]
  | cons b t ih =>
      by_cases hb : goodByte b = true <;>
        simp [firstBad, hb, List.forall_mem_cons, ih]

lemma not_good (b : Nat) (h : ¬ goodByte b = true) :
    hexDigitValue b = none ∧ isWhitespaceByte b = false := by
  unfold goodByte at h
  constructor
  · cases hv : hexDigitValue b with
    | none => rfl
    | some v => exact absurd (by rw [hv]; rfl) h
  · cases hw : isWhitespaceByte b with
    | false => rfl
    | true => exact absurd (by rw [hw]; simp) h

/-- On reaching the first rejected byte, the decoder fails with
`InvalidHexCharacter` carrying the character that starts at that byte
offset of the original string; the offset is always a character boundary,
so the character lookup succeeds. -/
lemma loop_firstBad : ∀ (s2 s1 : List Char) (m buf : Nat) (acc : List Nat) (i : Nat),
    firstBad (utf8Bytes s2) = some i →
    ∃ ch, charAtByte (s1 ++ s2) ((utf8Bytes s1).length + i) = some ch ∧
      from_hexLoop (s1 ++ s2) (utf8Bytes s2) ((utf8Bytes s1).length) m buf acc =
        some (Except.error
          (FromHexError.InvalidHexCharacter ch ((utf8Bytes s1).length + i))) := by
  intro s2
  induction s2 with
  | nil => intro s1 m buf acc i h; simp [utf8Bytes, firstBad] at h
  | cons c t ih =>
      intro s1 m buf acc i h
      by_cases hc : c.toNat < 0x80
      · have henc : utf8Bytes (c :: t) = c.toNat :: utf8Bytes t := by
          show utf8EncodeChar c ++ utf8Bytes t = _
          rw [utf8EncodeChar_ascii c hc]
          rfl
        rw [henc] at h ⊢
        by_cases hg : goodByte c.toNat = true
        · simp only [firstBad, if_pos hg] at h
          cases hfb : firstBad (utf8Bytes t) with
          | none => rw [hfb] at h; simp at h
          | some j =>
              rw [hfb] at h
              simp only [Option.map_some'] at h
              have hi : i = j + 1 := (Option.some.inj h).symm
              subst hi
              have e1 : (s1 ++ [c]) ++ t = s1 ++ c :: t := by simp
              have e2 : (utf8Bytes (s1 ++ [c])).length = (utf8Bytes s1).length + 1 := by
                rw [utf8Bytes_append]
                simp [utf8Bytes, utf8EncodeChar_ascii c hc]
              have e3 : (utf8Bytes s1).length + (j + 1) =
                  (utf8Bytes s1).length + 1 + j := by omega
              cases hv : hexDigitValue c.toNat with
              | some v =>
                  by_cases hm : m + 1 = 2
                  · obtain ⟨ch, hch, hloop⟩ :=
                      ih (s1 ++ [c]) 0 (((buf <<< 4) % 256) ||| v)
                        (acc ++ [((buf <<< 4) % 256) ||| v]) j hfb
                    rw [e1, e2] at hch hloop
                    refine ⟨ch, by rw [e3]; exact hch, ?_⟩
                    simp only [from_hexLoop, hv, if_pos hm]
                    rw [e3]
                    exact hloop
                  · obtain ⟨ch, hch, hloop⟩ :=
                      ih (s1 ++ [c]) (m + 1) (((buf <<< 4) % 256) ||| v) acc j hfb
                    rw [e1, e2] at hch hloop
                    refine ⟨ch, by rw [e3]; exact hch, ?_⟩
                    simp only [from_hexLoop, hv, if_neg hm]
                    rw [e3]
                    exact hloop
              | none =>
                  have hws : isWhitespaceByte c.toNat = true := by
                    unfold goodByte at hg
                    rw [hv] at hg
                    simpa using hg
                  obtain ⟨ch, hch, hloop⟩ :=
                    ih (s1 ++ [c]) m (((buf <<< 4) % 256) >>> 4) acc j hfb
                  rw [e1, e2] at hch hloop
                  refine ⟨ch, by rw [e3]; exact hch, ?_⟩
                  simp only [from_hexLoop, hv, hws, if_true]
                  rw [e3]
                  exact hloop
        · have h0 : i = 0 := by
            simp only [firstBad, if_neg hg] at h
            exact (Option.some.inj h).symm
          subst h0
          obtain ⟨hdv, hws⟩ := not_good c.toNat hg
          refine ⟨c, ?_, ?_⟩
          · rw [Nat.add_zero]
            exact charAtByte_boundary s1 c t
          · simp only [from_hexLoop, hdv, hws, Bool.false_eq_true, if_false,
              Nat.add_zero, charAtByte_boundary s1 c t]
      · have hc' : 0x80 ≤ c.toNat := by omega
        obtain ⟨b, bs, henc, hb⟩ := utf8EncodeChar_head_ge c hc'
        have hbad : ¬ goodByte b = true := fun hgb => by
          have := goodByte_lt b hgb
          omega
        have hbytes : utf8Bytes (c :: t) = b :: (bs ++ utf8Bytes t) := by
          show utf8EncodeChar c ++ utf8Bytes t = _
          rw [henc]
          rfl
        rw [hbytes] at h ⊢
        have h0 : i = 0 := by
          simp only [firstBad, if_neg hbad] at h
          exact (Option.some.inj h).symm
        subst h0
        obtain ⟨hdv, hws⟩ := not_good b hbad
        refine ⟨c, ?_, ?_⟩
        · rw [Nat.add_zero]
          exact charAtByte_boundary s1 c t
        · simp only [from_hexLoop, hdv, hws, Bool.false_eq_true, if_false,
            Nat.add_zero, charAtByte_boundary s1 c t]

/-- C9: `from_hex` never panics: the result is always `some`, and
whenever the scan rejects a byte, that byte offset is a character
boundary of the input, so the character lookup for the error value
succeeds. -/
theorem from_hex_no_panic (s : List Char) :
    (from_hex s).isSome = true ∧
    ∀ i, firstBad (utf8Bytes s) = some i → (charAtByte s i).isSome = true := by
  cases hfb : firstBad (utf8Bytes s) with
  | none =>
      have hg : ∀ b ∈ utf8Bytes s, goodByte b = true := (firstBad_eq_none _).mp hfb
      refine ⟨?_, ?_⟩
      · unfold from_hex
        rw [loop_good _ _ _ _ _ _ hg]
        rfl
      · intro i hi
        simp at hi
  | some i =>
      obtain ⟨ch, hch, hloop⟩ := loop_firstBad s [] 0 0 [] i hfb
      simp only [List.nil_append, utf8Bytes, List.length_nil, Nat.zero_add]
        at hch hloop
      refine ⟨?_, ?_⟩
      · unfold from_hex
        rw [hloop]
        rfl
      · intro j hj
        have hij : i = j := Option.some.inj hj
        subst hij
        rw [hch]
        rfl

/-- Witness for C9 at the string `"66y6"` (whose byte 2 is rejected). -/
theorem from_hex_no_panic_witness :
    (from_hex ("66y6".toList)).isSome = true ∧
    (charAtByte ("66y6".toList) 2).isSome = true :=
  ⟨(from_hex_no_panic ("66y6".toList)).1,
   (from_hex_no_panic ("66y6".toList)).2 2 (by decide)⟩

/-- C4: on any input with a rejected byte, decoding fails at the first
such byte with `InvalidHexCharacter` carrying the character decoded from
the original text at that byte offset, and the offset itself; in
particular `from_hex "66y6" = Err (InvalidHexCharacter 'y' 2)`. -/
theorem from_hex_invalid_char :
    (∀ (s : List Char) (i : Nat), firstBad (utf8Bytes s) = some i →
      ∃ ch, charAtByte s i = some ch ∧
        from_hex s = some (Except.error (FromHexError.InvalidHexCharacter ch i))) ∧
    from_hex ("66y6".toList) =
      some (Except.error (FromHexError.InvalidHexCharacter 'y' 2)) := by
  constructor
  · intro s i h
    obtain ⟨ch, hch, hloop⟩ := loop_firstBad s [] 0 0 [] i h
    simp only [List.nil_append, utf8Bytes, List.length_nil, Nat.zero_add]
      at hch hloop
    exact ⟨ch, hch, by unfold from_hex; exact hloop⟩
  · rfl

/-- Witness for C4 at the string `"66y6"`. -/
theorem from_hex_invalid_char_witness :
    ∃ ch, charAtByte ("66y6".toList) 2 = some ch ∧
      from_hex ("66y6".toList) =
        some (Except.error (FromHexError.InvalidHexCharacter ch 2)) :=
  from_hex_invalid_char.1 ("66y6".toList) 2 (by decide)

/-! ### Error characterization helpers -/

lemma from_hex_ok_of_good_even (s : List Char)
    (hg : ∀ b ∈ utf8Bytes s, goodByte b = true)
    (he : 2 ∣ (digits (utf8Bytes s)).length) :
    ∃ r, from_hex s = some (Except.ok r) := by
  obtain ⟨r, hr⟩ :=
    nibLoop_even (digits (utf8Bytes s)) 0 0 [] (by omega) (by simpa using he)
  exact ⟨r, by unfold from_hex; rw [loop_good _ _ _ _ _ _ hg, hr]⟩

lemma from_hex_err_of_bad (s : List Char)
    (h : ¬ ∀ b ∈ utf8Bytes s, goodByte b = true) :
    ∃ e, from_hex s = some (Except.error e) := by
  cases hfb : firstBad (utf8Bytes s) with
  | none => exact absurd ((firstBad_eq_none _).mp hfb) h
  | some i =>
      obtain ⟨ch, _, hloop⟩ := loop_firstBad s [] 0 0 [] i hfb
      simp only [List.nil_append, utf8Bytes, List.length_nil, Nat.zero_add]
        at hloop
      exact ⟨_, by unfold from_hex; rw [hloop]⟩

lemma from_hex_len_err (s : List Char)
    (hg : ∀ b ∈ utf8Bytes s, goodByte b = true)
    (ho : ¬ 2 ∣ (digits (utf8Bytes s)).length) :
    from_hex s = some (Except.error FromHexError.InvalidHexLength) := by
  unfold from_hex
  rw [loop_good _ _ _ _ _ _ hg,
      nibLoop_odd _ 0 0 [] (by omega) (by simpa using ho)]

/-- C3: decoding fails iff the input has a byte that is neither a hex
digit nor recognized whitespace, or the count of hex digits is odd; and
when every byte is accepted but the digit count is odd, the failure is
exactly `InvalidHexLength`. -/
theorem from_hex_error_characterization (s : List Char) :
    ((∃ e, from_hex s = some (Except.error e)) ↔
      (∃ b ∈ utf8Bytes s, goodByte b = false) ∨
        ¬ 2 ∣ (digits (utf8Bytes s)).length) ∧
    ((∀ b ∈ utf8Bytes s, goodByte b = true) →
      ¬ 2 ∣ (digits (utf8Bytes s)).length →
      from_hex s = some (Except.error FromHexError.InvalidHexLength)) := by
  refine ⟨⟨?_, ?_⟩, from_hex_len_err s⟩
  · rintro ⟨e, he⟩
    by_cases hg : ∀ b ∈ utf8Bytes s, goodByte b = true
    · right
      intro heven
      obtain ⟨r, hr⟩ := from_hex_ok_of_good_even s hg heven
      rw [he] at hr
      simp at hr
    · left
      push_neg at hg
      obtain ⟨b, hb, hbad⟩ := hg
      exact ⟨b, hb, by simpa using hbad⟩
  · rintro (⟨b, hb, hbad⟩ | hodd)
    · exact from_hex_err_of_bad s
        (fun hall => by rw [hall b hb] at hbad; cases hbad)
    · by_cases hg : ∀ b ∈ utf8Bytes s, goodByte b = true
      · exact ⟨_, from_hex_len_err s hg hodd⟩
      · exact from_hex_err_of_bad s hg

/-- Witness for C3 at the odd-digit string `"6 66"`. -/
theorem from_hex_error_characterization_witness :
    from_hex ("6 66".toList) =
      some (Except.error FromHexError.InvalidHexLength) :=
  (from_hex_error_characterization ("6 66".toList)).2 (by decide) (by decide)

/-! ### Whitespace transparency and case insensitivity -/

lemma utf8Bytes_good_bytes : ∀ s : List Char, (∀ c ∈ s, goodByte c.toNat = true) →
    ∀ b ∈ utf8Bytes s, goodByte b = true := by
  intro s
  induction s with
  | nil => intro _ b hb; simp [utf8Bytes] at hb
  | cons c t ih =>
      intro h b hb
      have hc : goodByte c.toNat = true := h c (List.mem_cons_self _ _)
      rw [show utf8Bytes (c :: t) = utf8EncodeChar c ++ utf8Bytes t from rfl,
          utf8EncodeChar_ascii c (goodByte_lt _ hc)] at hb
      simp only [List.singleton_append, List.mem_cons] at hb
      rcases hb with hb | hb
      · exact hb ▸ hc
      · exact ih (fun x hx => h x (List.mem_cons_of_mem _ hx)) b hb

lemma wsChar_facts (c : Char) (hc : c = ' ' ∨ c = '\r' ∨ c = '\n' ∨ c = '\t') :
    goodByte c.toNat = true ∧ hexDigitValue c.toNat = none ∧ c.toNat < 0x80 := by
  rcases hc with h | h | h | h <;> subst h <;>
    exact ⟨by decide, by decide, by decide⟩

/-- C6: inserting one of the four recognized whitespace characters at any
position of a string of accepted characters — also between the two digits
of one logical byte — does not change the decoded result. -/
theorem from_hex_ws_transparent (s1 s2 : List Char) (c : Char)
    (hc : c = ' ' ∨ c = '\r' ∨ c = '\n' ∨ c = '\t')
    (h : ∀ x ∈ s1 ++ s2, goodByte x.toNat = true) :
    from_hex (s1 ++ c :: s2) = from_hex (s1 ++ s2) := by
  obtain ⟨hcg, hcd, hclt⟩ := wsChar_facts c hc
  have hall : ∀ x ∈ s1 ++ c :: s2, goodByte x.toNat = true := by
    intro x hx
    rcases List.mem_append.mp hx with hx | hx
    · exact h x (List.mem_append.mpr (Or.inl hx))
    · rcases List.mem_cons.mp hx with hx | hx
      · exact hx ▸ hcg
      · exact h x (List.mem_append.mpr (Or.inr hx))
  have hg1 := utf8Bytes_good_bytes _ hall
  have hg2 := utf8Bytes_good_bytes _ h
  unfold from_hex
  rw [loop_good _ _ _ _ _ _ hg1, loop_good _ _ _ _ _ _ hg2]
  have hdig : digits (utf8Bytes (s1 ++ c :: s2)) = digits (utf8Bytes (s1 ++ s2)) := by
    rw [utf8Bytes_append, utf8Bytes_append,
        show utf8Bytes (c :: s2) = utf8EncodeChar c ++ utf8Bytes s2 from rfl,
        utf8EncodeChar_ascii c hclt]
    simp [digits, List.filterMap_append, List.filterMap_cons, hcd]
  rw [hdig]

/-- Witness for C6: a space inserted between the two digits of the second
byte of `"666f"`. -/
theorem from_hex_ws_transparent_witness :
    from_hex (("666".toList) ++ ' ' :: ("f".toList)) =
      from_hex (("666".toList) ++ ("f".toList)) :=
  from_hex_ws_transparent ("666".toList) ("f".toList) ' ' (Or.inl rfl) (by decide)

/-- ASCII uppercasing of one character. Modelled from the spec: Rust's
`str::to_uppercase` restricted to the claim's domain (hex digits and the
four recognized whitespace characters, all ASCII), on which the
Unicode-aware uppercasing is exactly ASCII uppercasing. -/
def toUpperChar (c : Char) : Char :=
  if 0x61 ≤ c.toNat ∧ c.toNat ≤ 0x7a then Char.ofNat (c.toNat - 32) else c

/-- ASCII uppercasing on the byte level. -/
def upperByte (b : Nat) : Nat := if 0x61 ≤ b ∧ b ≤ 0x7a then b - 32 else b

set_option maxRecDepth 4096 in
lemma upper_good : ∀ b, b < 128 → goodByte b = true →
    goodByte (upperByte b) = true ∧
    hexDigitValue (upperByte b) = hexDigitValue b := by
  decide

set_option maxRecDepth 4096 in
lemma charOfNat_toNat : ∀ v, v < 128 → (Char.ofNat v).toNat = v := by decide

lemma toUpperChar_toNat (c : Char) (h : c.toNat < 0x80) :
    (toUpperChar c).toNat = upperByte c.toNat ∧ (toUpperChar c).toNat < 0x80 := by
  unfold toUpperChar upperByte
  split_ifs with hif
  · rw [charOfNat_toNat _ (by omega)]
    exact ⟨rfl, by omega⟩
  · exact ⟨rfl, h⟩

lemma utf8Bytes_map_upper : ∀ s : List Char, (∀ c ∈ s, goodByte c.toNat = true) →
    utf8Bytes (s.map toUpperChar) = (utf8Bytes s).map upperByte := by
  intro s
  induction s with
  | nil => intro _; rfl
  | cons c t ih =>
      intro h
      have hc : goodByte c.toNat = true := h c (List.mem_cons_self _ _)
      have hlt := goodByte_lt _ hc
      obtain ⟨he, hlt2⟩ := toUpperChar_toNat c hlt
      show utf8EncodeChar (toUpperChar c) ++ utf8Bytes (t.map toUpperChar) = _
      rw [utf8EncodeChar_ascii (toUpperChar c) hlt2, he,
          ih (fun x hx => h x (List.mem_cons_of_mem _ hx)),
          show utf8Bytes (c :: t) = utf8EncodeChar c ++ utf8Bytes t from rfl,
          utf8EncodeChar_ascii c hlt]
      rfl

lemma digits_map_upper : ∀ l : List Nat, (∀ b ∈ l, goodByte b = true) →
    digits (l.map upperByte) = digits l := by
  intro l
  induction l with
  | nil => intro _; rfl
  | cons b t ih =>
      intro h
      have hb : goodByte b = true := h b (List.mem_cons_self _ _)
      have heq := (upper_good b (goodByte_lt _ hb) hb).2
      have iht := ih (fun x hx => h x (List.mem_cons_of_mem _ hx))
      cases hv : hexDigitValue b <;>
        simp [digits, List.filterMap_cons, heq, hv, iht] <;>
        simpa [digits] using iht

/-- C5: decoding is case-insensitive: on a string of accepted characters
with an even digit count, uppercasing does not change the result, and an
uppercase hex letter has the same nibble value as its lowercase form. -/
theorem from_hex_case_insensitive (s : List Char)
    (h : ∀ c ∈ s, goodByte c.toNat = true)
    (_heven : 2 ∣ (digits (utf8Bytes s)).length) :
    from_hex (s.map toUpperChar) = from_hex s ∧
    ∀ b, 0x61 ≤ b → b ≤ 0x66 → hexDigitValue (b - 0x20) = hexDigitValue b := by
  constructor
  · have hg := utf8Bytes_good_bytes s h
    have hgU : ∀ c ∈ s.map toUpperChar, goodByte c.toNat = true := by
      intro c hcm
      obtain ⟨a, ha, rfl⟩ := List.mem_map.mp hcm
      have hlt := goodByte_lt _ (h a ha)
      rw [(toUpperChar_toNat a hlt).1]
      exact (upper_good a.toNat hlt (h a ha)).1
    have hgU' := utf8Bytes_good_bytes _ hgU
    unfold from_hex
    rw [loop_good _ _ _ _ _ _ hgU', loop_good _ _ _ _ _ _ hg,
        utf8Bytes_map_upper s h, digits_map_upper _ hg]
  · intro b h1 h2
    interval_cases b <;> rfl

/-- Witness for C5 at the lowercase string `"6f"`. -/
theorem from_hex_case_insensitive_witness :
    from_hex (("6f".toList).map toUpperChar) = from_hex ("6f".toList) ∧
    ∀ b, 0x61 ≤ b → b ≤ 0x66 → hexDigitValue (b - 0x20) = hexDigitValue b :=
  from_hex_case_insensitive ("6f".toList) (by decide) (by decide)
